import Mathlib

/-!
Verification development for the reference-resolution engine of the
event-catalog linter (src/validators/reference-validator.ts).

The engine consumes parsed catalog resources whose frontmatter is untyped
(JavaScript values), builds a version-aware resource index, extracts typed
cross-references from every resource, and reports a validation error for
every reference that no candidate resource type resolves.

The embedding models frontmatter as a JavaScript value tree (`JsValue`),
JavaScript property access (which throws a TypeError on `null`/`undefined`
receivers) as an `Except` computation, and the external `semver` npm
package by an executable model of its documented semantics on the grammar
the validator exercises.  All string scanning is done on `List Char` so
that every definition evaluates inside the kernel.
-/

namespace RefLint

/-- JavaScript values as they appear in parsed frontmatter.  Numbers are
modelled as integers (no claim involves fractional numerics). -/
inductive JsValue where
  | undef : JsValue
  | null : JsValue
  | str : String → JsValue
  | num : Int → JsValue
  | boolean : Bool → JsValue
  | arr : List JsValue → JsValue
  | obj : List (String × JsValue) → JsValue

/-- Field lookup in a JavaScript object literal; a missing key yields
`undefined`, as in JavaScript. -/
def getField : List (String × JsValue) → String → JsValue
  | [], _ => JsValue.undef
  | (k, v) :: rest, key => if k = key then v else getField rest key

/-- Total model of JavaScript property access `v.key` for receivers that are
not `null`/`undefined` (on those the real access throws; see `getProp`).
Property access on primitives yields `undefined` for the keys the validator
reads. -/
def jsGet (v : JsValue) (key : String) : JsValue :=
  match v with
  | JsValue.obj fields => getField fields key
  | _ => JsValue.undef

/-- JavaScript property access `v.key`: throws a TypeError when the receiver
is `null` or `undefined`, otherwise behaves like `jsGet`. -/
def getProp (v : JsValue) (key : String) : Except String JsValue :=
  match v with
  | JsValue.undef => Except.error ("TypeError: Cannot read properties of undefined (reading '" ++ key ++ "')")
  | JsValue.null => Except.error ("TypeError: Cannot read properties of null (reading '" ++ key ++ "')")
  | _ => Except.ok (jsGet v key)

/-- JavaScript truthiness. -/
def truthy : JsValue → Bool
  | JsValue.undef => false
  | JsValue.null => false
  | JsValue.str s => if s = "" then false else true
  | JsValue.num n => if n = 0 then false else true
  | JsValue.boolean b => b
  | JsValue.arr _ => true
  | JsValue.obj _ => true

/-- Model of JavaScript `Array.isArray`. -/
def jsIsArr : JsValue → Bool
  | JsValue.arr _ => true
  | _ => false

/-- Elements of a JavaScript array value (empty list for non-arrays). -/
def jsElems : JsValue → List JsValue
  | JsValue.arr xs => xs
  | _ => []

/-- Whether a JavaScript value is a string (model of `typeof v ===
'string'`). -/
def jsIsStr : JsValue → Bool
  | JsValue.str _ => true
  | _ => false

/-- Receivers on which JavaScript property access does not throw. -/
def refOkB : JsValue → Bool
  | JsValue.undef => false
  | JsValue.null => false
  | _ => true

/-- Decimal digit character. -/
def digitChar (n : Nat) : Char := Char.ofNat (48 + n % 10)

/-- Fuel-indexed decimal digits of a natural number (most significant
first); the fuel is always sufficient at the call site in `natToStr`. -/
def natDigits : Nat → Nat → List Char
  | 0, _ => []
  | fuel + 1, n => if n < 10 then [digitChar n] else natDigits fuel (n / 10) ++ [digitChar n]

/-- Decimal rendering of a natural number. -/
def natToStr (n : Nat) : String := String.mk (natDigits (n + 1) n)

/-- Decimal rendering of an integer, as JavaScript renders number values. -/
def intToStr : Int → String
  | Int.ofNat n => natToStr n
  | Int.negSucc n => "-" ++ natToStr (n + 1)

/-- Join strings with a separator (model of `Array.prototype.join`). -/
def strJoin (sep : String) : List String → String
  | [] => ""
  | [s] => s
  | s :: rest => s ++ sep ++ strJoin sep rest

/-- Fuel-indexed model of JavaScript string coercion `String(v)`: strings
are themselves, `undefined`/`null`/numbers/booleans render as their literal
names, arrays join their elements with commas (with `null`/`undefined`
elements rendered empty), plain objects render as `[object Object]`.  The
fuel bounds only the array-nesting depth and makes the nested recursion
through array elements structural. -/
def jsToStringFuel (fuel : Nat) : JsValue → String
  | JsValue.undef => "undefined"
  | JsValue.null => "null"
  | JsValue.str s => s
  | JsValue.num n => intToStr n
  | JsValue.boolean b => if b then "true" else "false"
  | JsValue.obj _ => "[object Object]"
  | JsValue.arr xs =>
      match fuel with
      | 0 => ""
      | f + 1 =>
          strJoin "," (xs.map (fun v =>
            match v with
            | JsValue.undef => ""
            | JsValue.null => ""
            | w => jsToStringFuel f w))

/-- JavaScript string coercion `String(v)`, modelled up to array-nesting
depth 1000 (far beyond anything the validator meets; only the rendering of
arrays nested deeper than that is cut off). -/
def jsToString (v : JsValue) : String := jsToStringFuel 1000 v

/-- JavaScript object-key coercion: property keys are coerced with
`String(...)`. -/
def propKey (v : JsValue) : String := jsToString v

/-- Split a character list at every occurrence of a separator character
(model of `String.prototype.split` with a one-character separator). -/
def chSplit (sep : Char) : List Char → List (List Char)
  | [] => [[]]
  | c :: cs =>
      let rest := chSplit sep cs
      if c = sep then [] :: rest
      else
        match rest with
        | [] => [[c]]
        | r :: rs => (c :: r) :: rs

/-- Split a character list at the first occurrence of a separator, keeping
track of whether the separator occurred at all. -/
def chBreakAt (sep : Char) : List Char → List Char × Option (List Char)
  | [] => ([], none)
  | c :: cs =>
      if c = sep then ([], some cs)
      else
        let r := chBreakAt sep cs
        (c :: r.1, r.2)

/-- Whether `p` is a prefix of `s` (model of `String.prototype.startsWith`). -/
def chIsPre (p s : List Char) : Bool :=
  match p, s with
  | [], _ => true
  | _ :: _, [] => false
  | a :: ps, b :: ss => if a = b then chIsPre ps ss else false

/-- Whether the two-character pattern `.x` occurs in the list (model of
`refVersion.includes('.x')`). -/
def chHasDotX : List Char → Bool
  | [] => false
  | '.' :: 'x' :: _ => true
  | _ :: rest => chHasDotX rest

/-- Remove every (left-to-right, non-overlapping) occurrence of the
two-character pattern `.x` (model of `refVersion.replace(/\.x/g, '')`). -/
def chStripDotX : List Char → List Char
  | [] => []
  | '.' :: 'x' :: rest => chStripDotX rest
  | c :: rest => c :: chStripDotX rest

/-- String-level wrapper for `chHasDotX`. -/
def strHasDotX (s : String) : Bool := chHasDotX s.toList

/-- String-level wrapper for `chStripDotX`. -/
def strStripDotX (s : String) : String := String.mk (chStripDotX s.toList)

/-- String-level wrapper for `chIsPre` (model of `startsWith`). -/
def strStartsWith (s p : String) : Bool := chIsPre p.toList s.toList

/-- Strict-equality membership of a string in a string list (model of
`Array.prototype.includes` on string arrays). -/
def strListHas : List String → String → Bool
  | [], _ => false
  | v :: rest, x => if v = x then true else strListHas rest x

/-- Numeric value of a digit list. -/
def natOf (cs : List Char) : Nat :=
  cs.foldl (fun acc c => acc * 10 + (c.toNat - 48)) 0

/-- Digit list forming a valid semver numeric part: nonempty, all digits,
no leading zero unless the part is exactly `0`. -/
def validNumPart : List Char → Bool
  | [] => false
  | ['0'] => true
  | '0' :: _ :: _ => false
  | cs => cs.all Char.isDigit

/-- Valid semver prerelease identifier: nonempty, alphanumeric or hyphen,
and when purely numeric, free of leading zeros. -/
def validPreId (cs : List Char) : Bool :=
  !cs.isEmpty && cs.all (fun c => c.isAlphanum || c = '-') &&
    (if cs.all Char.isDigit then validNumPart cs else true)

/-- Valid semver build identifier: nonempty, alphanumeric or hyphen. -/
def validBuildId (cs : List Char) : Bool :=
  !cs.isEmpty && cs.all (fun c => c.isAlphanum || c = '-')

/-- Parsed semantic version (build metadata is validated but discarded, as
it never participates in comparison). -/
structure SemVer where
  major : Nat
  minor : Nat
  patch : Nat
  pre : List (List Char)
deriving DecidableEq

/-- Model of the external `semver` package's strict version parser
(`semver.valid`): an optional leading `v`, three dot-separated numeric
parts without leading zeros, an optional `-` prerelease (dot-separated
identifiers) and an optional `+` build suffix. -/
def parseSemVerChars (cs0 : List Char) : Option SemVer :=
  let cs := match cs0 with
    | 'v' :: rest => rest
    | _ => cs0
  let broken := chBreakAt '+' cs
  let buildOk := match broken.2 with
    | none => true
    | some b => (chSplit '.' b).all validBuildId
  let core := chBreakAt '-' broken.1
  let preIds : Option (List (List Char)) := match core.2 with
    | none => some []
    | some p =>
        let ids := chSplit '.' p
        if ids.all validPreId then some ids else none
  match chSplit '.' core.1 with
  | [a, b, c] =>
      if validNumPart a = true ∧ validNumPart b = true ∧ validNumPart c = true ∧ buildOk = true then
        preIds.map (fun pre => ⟨natOf a, natOf b, natOf c, pre⟩)
      else none
  | _ => none

/-- Model of `semver.valid(s) !== null`. -/
def semverValid (s : String) : Bool := (parseSemVerChars s.toList).isSome

/-- ASCII-lexicographic comparison of character lists. -/
def chLt : List Char → List Char → Bool
  | [], [] => false
  | [], _ :: _ => true
  | _ :: _, [] => false
  | a :: as, b :: bs => if a = b then chLt as bs else decide (a.toNat < b.toNat)

/-- Numeric value of an all-digit identifier, `none` otherwise. -/
def identNum? (cs : List Char) : Option Nat :=
  if cs ≠ [] ∧ cs.all Char.isDigit then some (natOf cs) else none

/-- Semver precedence on single prerelease identifiers: numeric identifiers
compare numerically and precede alphanumeric ones; alphanumeric identifiers
compare in ASCII order. -/
def identLtB (a b : List Char) : Bool :=
  match identNum? a, identNum? b with
  | some x, some y => decide (x < y)
  | some _, none => true
  | none, some _ => false
  | none, none => chLt a b

/-- Semver precedence on prerelease identifier lists: elementwise, with a
strict prefix preceding any extension of it. -/
def preLtB : List (List Char) → List (List Char) → Bool
  | [], [] => false
  | [], _ :: _ => true
  | _ :: _, [] => false
  | a :: as, b :: bs => if a = b then preLtB as bs else identLtB a b

/-- Semver precedence: compare the numeric triple, then prerelease (a
version carrying a prerelease precedes the same triple without one). -/
def svLtB (a b : SemVer) : Bool :=
  if a.major ≠ b.major then decide (a.major < b.major)
  else if a.minor ≠ b.minor then decide (a.minor < b.minor)
  else if a.patch ≠ b.patch then decide (a.patch < b.patch)
  else
    match a.pre, b.pre with
    | [], [] => false
    | _ :: _, [] => true
    | [], _ :: _ => false
    | _ :: _, _ :: _ => preLtB a.pre b.pre

/-- Non-strict semver precedence. -/
def svLeB (a b : SemVer) : Bool := svLtB a b || decide (a = b)

/-- Primitive comparator operators of a semver range. -/
inductive CompOp where
  | ceq : CompOp
  | cgt : CompOp
  | cge : CompOp
  | clt : CompOp
  | cle : CompOp
deriving DecidableEq

/-- Primitive comparator of a semver range. -/
structure Comp where
  op : CompOp
  ver : SemVer
deriving DecidableEq

/-- Whether a version meets one primitive comparator. -/
def compSat (v : SemVer) (c : Comp) : Bool :=
  match c.op with
  | CompOp.ceq => decide (v = c.ver)
  | CompOp.cgt => svLtB c.ver v
  | CompOp.cge => svLeB c.ver v
  | CompOp.clt => svLtB v c.ver
  | CompOp.cle => svLeB v c.ver

/-- The comparator list matching every (non-prerelease) version. -/
def allComps : List Comp := [⟨CompOp.cge, ⟨0, 0, 0, []⟩⟩]

/-- Wildcard component of an x-range (`x`, `X` or `*`). -/
def wildPart (cs : List Char) : Bool := cs = ['x'] || cs = ['X'] || cs = ['*']

/-- Desugaring of a caret comparator `^M.m.p`: at least the version, below
the next increment of the leftmost nonzero component. -/
def caretComps (v : SemVer) : List Comp :=
  if v.major ≠ 0 then [⟨CompOp.cge, v⟩, ⟨CompOp.clt, ⟨v.major + 1, 0, 0, []⟩⟩]
  else if v.minor ≠ 0 then [⟨CompOp.cge, v⟩, ⟨CompOp.clt, ⟨0, v.minor + 1, 0, []⟩⟩]
  else [⟨CompOp.cge, v⟩, ⟨CompOp.clt, ⟨0, 0, v.patch + 1, []⟩⟩]

/-- Desugaring of a tilde comparator `~M.m.p`: at least the version, below
the next minor. -/
def tildeComps (v : SemVer) : List Comp :=
  [⟨CompOp.cge, v⟩, ⟨CompOp.clt, ⟨v.major, v.minor + 1, 0, []⟩⟩]

/-- Desugaring of a bare range token: a full version is an exact
comparator; `*`, `x`, `X` and the empty token match everything; partial and
x-range tokens (`1`, `1.2`, `1.x`, `1.2.x`) desugar to the corresponding
half-open interval.  Tokens outside this grammar make the range invalid. -/
def parsePlainComp (cs : List Char) : Option (List Comp) :=
  match parseSemVerChars cs with
  | some v => some [⟨CompOp.ceq, v⟩]
  | none =>
      if cs = [] ∨ wildPart cs then some allComps
      else
        match chSplit '.' cs with
        | [a] =>
            if validNumPart a then
              some [⟨CompOp.cge, ⟨natOf a, 0, 0, []⟩⟩, ⟨CompOp.clt, ⟨natOf a + 1, 0, 0, []⟩⟩]
            else none
        | [a, b] =>
            if wildPart a then some allComps
            else if validNumPart a ∧ wildPart b then
              some [⟨CompOp.cge, ⟨natOf a, 0, 0, []⟩⟩, ⟨CompOp.clt, ⟨natOf a + 1, 0, 0, []⟩⟩]
            else if validNumPart a ∧ validNumPart b then
              some [⟨CompOp.cge, ⟨natOf a, natOf b, 0, []⟩⟩, ⟨CompOp.clt, ⟨natOf a, natOf b + 1, 0, []⟩⟩]
            else none
        | [a, b, c] =>
            if wildPart a then some allComps
            else if validNumPart a ∧ wildPart b then
              some [⟨CompOp.cge, ⟨natOf a, 0, 0, []⟩⟩, ⟨CompOp.clt, ⟨natOf a + 1, 0, 0, []⟩⟩]
            else if validNumPart a ∧ validNumPart b ∧ wildPart c then
              some [⟨CompOp.cge, ⟨natOf a, natOf b, 0, []⟩⟩, ⟨CompOp.clt, ⟨natOf a, natOf b + 1, 0, []⟩⟩]
            else none
        | _ => none

/-- Desugaring of one whitespace-delimited range token into primitive
comparators: an operator (`^`, `~`, `>=`, `<=`, `>`, `<`, `=`) followed by
a full version, or a bare token per `parsePlainComp`. -/
def parseCompToken (token : List Char) : Option (List Comp) :=
  match token with
  | '^' :: rest => (parseSemVerChars rest).map caretComps
  | '~' :: rest => (parseSemVerChars rest).map tildeComps
  | '>' :: '=' :: rest => (parseSemVerChars rest).map (fun v => [⟨CompOp.cge, v⟩])
  | '<' :: '=' :: rest => (parseSemVerChars rest).map (fun v => [⟨CompOp.cle, v⟩])
  | '>' :: rest => (parseSemVerChars rest).map (fun v => [⟨CompOp.cgt, v⟩])
  | '<' :: rest => (parseSemVerChars rest).map (fun v => [⟨CompOp.clt, v⟩])
  | '=' :: rest => (parseSemVerChars rest).map (fun v => [⟨CompOp.ceq, v⟩])
  | _ => parsePlainComp token

/-- Model of the `semver` package's range parser on the grammar the spec
invokes (single comparator sets; alternation `||` and hyphen ranges are
outside the modelled subset and yield an invalid range, on which
`semver.satisfies` answers `false`). -/
def parseRange (r : String) : Option (List Comp) :=
  let tokens := (chSplit ' ' r.toList).filter (fun t => t ≠ [])
  if tokens.any (fun t => t.any (fun c => c = '|')) ∨ tokens.any (fun t => t = ['-']) then none
  else if tokens = [] then some allComps
  else (tokens.mapM parseCompToken).map (fun ls => ls.foldr (fun x acc => x ++ acc) [])

/-- Whether a version meets a comparator set: every comparator holds, and a
prerelease version additionally requires some comparator to carry a
prerelease on the same numeric triple. -/
def rangeSatisfies (v : SemVer) (comps : List Comp) : Bool :=
  comps.all (compSat v) &&
    (v.pre.isEmpty ||
      comps.any (fun c => !c.ver.pre.isEmpty && decide (c.ver.major = v.major ∧ c.ver.minor = v.minor ∧ c.ver.patch = v.patch)))

/-- Model of `semver.satisfies(version, range)`: `false` whenever either
side fails to parse (the package catches range-parse errors internally),
otherwise comparator-set satisfaction. -/
def semverSatisfies (version range : String) : Bool :=
  match parseSemVerChars version.toList, parseRange range with
  | some v, some comps => rangeSatisfies v comps
  | _, _ => false

/-- Modelled from the spec: the scanner's per-file record (§3
ParsedResource `location`); the scanner source is not part of the
snapshot.  Fields mirror the `CatalogFile` shape the tests construct. -/
structure CatalogFile where
  path : String
  relativePath : String
  resourceType : String
  resourceId : String

/-- Modelled from the spec: the parser's output record (§3 ParsedResource);
the parser source is not part of the snapshot.  The frontmatter is an
untyped JavaScript object. -/
structure ParsedFile where
  file : CatalogFile
  frontmatter : List (String × JsValue)
  content : String
  raw : String

/-- Validation error record, with the fields the reference validator
populates. -/
structure ValidationError where
  type : String
  resource : String
  field : String
  message : String
  file : String
  rule : String
deriving DecidableEq

/-- Resource index: resource type, then resource id, then the set of known
version strings (in first-insertion order, as a JavaScript `Set` iterates). -/
abbrev ResourceIndex : Type := List (String × List (String × List String))

/-- Association-list lookup by string key. -/
def alistFind {α : Type} : List (String × α) → String → Option α
  | [], _ => none
  | (k', v) :: rest, k => if k' = k then some v else alistFind rest k

/-- Association-list update: apply `f` to the value at `k` (passing `none`
when absent, which appends a new entry, as JavaScript object insertion
does). -/
def alistUpdate {α : Type} : List (String × α) → String → (Option α → α) → List (String × α)
  | [], k, f => [(k, f none)]
  | (k', v) :: rest, k, f =>
      if k' = k then (k', f (some v)) :: rest else (k', v) :: alistUpdate rest k f

/-- Set insertion on version-string lists (model of `Set.prototype.add`):
appends unless already present. -/
def setAdd (s : List String) (v : String) : List String :=
  if strListHas s v then s else s ++ [v]

/-- Index key for one parsed file: for `user`, `team` and `domain`
resources whose frontmatter `id` is a truthy string, that frontmatter id;
otherwise the storage-derived resource id
(reference-validator.ts lines 19-29). -/
def indexKeyId (pf : ParsedFile) : String :=
  let fid := getField pf.frontmatter "id"
  if (pf.file.resourceType = "user" ∨ pf.file.resourceType = "team" ∨ pf.file.resourceType = "domain")
      ∧ truthy fid = true ∧ jsIsStr fid = true then
    jsToString fid
  else pf.file.resourceId

/-- Version string one parsed file contributes to the index: its
frontmatter `version` when that is a truthy string, else the literal
`latest` (reference-validator.ts lines 39-43). -/
def versionToAdd (pf : ParsedFile) : String :=
  let v := getField pf.frontmatter "version"
  if truthy v = true ∧ jsIsStr v = true then jsToString v else "latest"

/-- One iteration of `buildResourceIndex`'s loop body. -/
def indexStep (index : ResourceIndex) (pf : ParsedFile) : ResourceIndex :=
  alistUpdate index pf.file.resourceType (fun tmap =>
    alistUpdate (tmap.getD []) (indexKeyId pf) (fun vset =>
      setAdd (vset.getD []) (versionToAdd pf)))

/-- Embedding of `buildResourceIndex` (reference-validator.ts lines 12-47). -/
def buildResourceIndex (parsedFiles : List ParsedFile) : ResourceIndex :=
  parsedFiles.foldl indexStep []

/-- Lookup `index[resourceType]?.[id]`. -/
def getIdx (index : ResourceIndex) (resourceType id : String) : Option (List String) :=
  (alistFind index resourceType).bind (fun m => alistFind m id)

/-- The version test of `checkResourceExists` once the resource's version
set was found non-empty (reference-validator.ts lines 56-99).  A falsy
`version` field accepts immediately; the literal `latest` accepts any
non-empty set; an exact string member accepts; otherwise the available
versions are filtered to valid semver entries distinct from `latest` and
tested as a semver range, with the bespoke `.x`-pattern fallback.  A truthy
non-string `version` ends up rejected: strict-equality membership and
`semver.satisfies` fail on it and the `.x` probe throws inside the guarded
block, degrading to the same failed membership test. -/
def versionSatisfied (refVersionV : JsValue) (availableVersions : List String) : Bool :=
  if truthy refVersionV = false then true
  else
    match refVersionV with
    | JsValue.str refVersion =>
        if refVersion = "latest" then
          strListHas availableVersions "latest" || decide (availableVersions.length > 0)
        else if strListHas availableVersions refVersion then true
        else
          let semverVersions := availableVersions.filter (fun v => v ≠ "latest" && semverValid v)
          if semverVersions.any (fun av => semverSatisfies av refVersion) then true
          else if strHasDotX refVersion then
            semverVersions.any (fun av => strStartsWith av (strStripDotX refVersion))
          else false
    | _ => false

/-- Embedding of `checkResourceExists` (reference-validator.ts lines
49-100); property accesses on the reference value may throw. -/
def checkResourceExists (ref : JsValue) (resourceType : String) (index : ResourceIndex) : Except String Bool := do
  let refIdV ← getProp ref "id"
  match getIdx index resourceType (propKey refIdV) with
  | none => pure false
  | some resourceVersions =>
      if resourceVersions.length = 0 then pure false
      else do
        let refVersionV ← getProp ref "version"
        pure (versionSatisfied refVersionV resourceVersions)

/-- Total counterpart of `checkResourceExists` for references on which
property access does not throw. -/
def checkPure (ref : JsValue) (resourceType : String) (index : ResourceIndex) : Bool :=
  match getIdx index resourceType (propKey (jsGet ref "id")) with
  | none => false
  | some resourceVersions =>
      if resourceVersions.length = 0 then false
      else versionSatisfied (jsGet ref "version") resourceVersions

/-- One extracted reference with its candidate resource types and the
frontmatter field it came from. -/
structure ReferenceInfo where
  ref : JsValue
  possibleTypes : List String
  field : String

/-- References collected from a frontmatter list field whose items are
reference objects (processed only when present and an array). -/
def listRefs (v : JsValue) (types : List String) (fieldName : String) : List ReferenceInfo :=
  if truthy v = true ∧ jsIsArr v = true then
    (jsElems v).map (fun r => ⟨r, types, fieldName⟩)
  else []

/-- References collected from a frontmatter list field whose items are bare
id values, each wrapped into `{id: item}`. -/
def idRefs (v : JsValue) (types : List String) (fieldName : String) : List ReferenceInfo :=
  if truthy v = true ∧ jsIsArr v = true then
    (jsElems v).map (fun o => ⟨JsValue.obj [("id", o)], types, fieldName⟩)
  else []

/-- Flow-step reference extraction (reference-validator.ts lines 148-161):
each step's `message` and `service` properties are read — throwing when the
step is `null`/`undefined` — and pushed when truthy. -/
def flowStepRefs : List JsValue → Nat → Except String (List ReferenceInfo)
  | [], _ => pure []
  | step :: rest, i => do
      let msg ← getProp step "message"
      let msgRefs := if truthy msg = true then
          [ReferenceInfo.mk msg ["event", "command", "query"] ("steps[" ++ natToStr i ++ "].message")]
        else []
      let svc ← getProp step "service"
      let svcRefs := if truthy svc = true then
          [ReferenceInfo.mk svc ["service"] ("steps[" ++ natToStr i ++ "].service")]
        else []
      let more ← flowStepRefs rest (i + 1)
      pure (msgRefs ++ svcRefs ++ more)

/-- Entity-property reference extraction (reference-validator.ts lines
163-173): each property's `references` field is read — throwing when the
property is `null`/`undefined` — and wrapped into `{id: value}` when
truthy. -/
def entityPropRefs : List JsValue → Nat → Except String (List ReferenceInfo)
  | [], _ => pure []
  | prop :: rest, i => do
      let r ← getProp prop "references"
      let propRefs := if truthy r = true then
          [ReferenceInfo.mk (JsValue.obj [("id", r)]) ["entity"] ("properties[" ++ natToStr i ++ "].references")]
        else []
      let more ← entityPropRefs rest (i + 1)
      pure (propRefs ++ more)

/-- Embedding of `extractReferences` (reference-validator.ts lines
108-188). -/
def extractReferences (pf : ParsedFile) : Except String (List ReferenceInfo) := do
  let fm := pf.frontmatter
  let rt := pf.file.resourceType
  let domainRefs :=
    if rt = "domain" then
      listRefs (getField fm "services") ["service"] "services" ++
      listRefs (getField fm "domains") ["domain"] "domains" ++
      listRefs (getField fm "entities") ["entity"] "entities"
    else []
  let serviceRefs :=
    if rt = "service" then
      listRefs (getField fm "sends") ["event", "command", "query"] "sends" ++
      listRefs (getField fm "receives") ["event", "command", "query"] "receives" ++
      listRefs (getField fm "entities") ["entity"] "entities"
    else []
  let flowRefs ←
    if rt = "flow" ∧ truthy (getField fm "steps") = true ∧ jsIsArr (getField fm "steps") = true then
      flowStepRefs (jsElems (getField fm "steps")) 0
    else pure []
  let entityRefs ←
    if rt = "entity" ∧ truthy (getField fm "properties") = true ∧ jsIsArr (getField fm "properties") = true then
      entityPropRefs (jsElems (getField fm "properties")) 0
    else pure []
  let ownerRefs := idRefs (getField fm "owners") ["user", "team"] "owners"
  let memberRefs :=
    if rt = "team" then idRefs (getField fm "members") ["user"] "members" else []
  pure (domainRefs ++ serviceRefs ++ flowRefs ++ entityRefs ++ ownerRefs ++ memberRefs)

/-- Total counterpart of `flowStepRefs` under non-throwing property
access. -/
def flowStepRefsPure : List JsValue → Nat → List ReferenceInfo
  | [], _ => []
  | step :: rest, i =>
      let msg := jsGet step "message"
      let msgRefs := if truthy msg = true then
          [ReferenceInfo.mk msg ["event", "command", "query"] ("steps[" ++ natToStr i ++ "].message")]
        else []
      let svc := jsGet step "service"
      let svcRefs := if truthy svc = true then
          [ReferenceInfo.mk svc ["service"] ("steps[" ++ natToStr i ++ "].service")]
        else []
      msgRefs ++ svcRefs ++ flowStepRefsPure rest (i + 1)

/-- Total counterpart of `entityPropRefs` under non-throwing property
access. -/
def entityPropRefsPure : List JsValue → Nat → List ReferenceInfo
  | [], _ => []
  | prop :: rest, i =>
      let r := jsGet prop "references"
      let propRefs := if truthy r = true then
          [ReferenceInfo.mk (JsValue.obj [("id", r)]) ["entity"] ("properties[" ++ natToStr i ++ "].references")]
        else []
      propRefs ++ entityPropRefsPure rest (i + 1)

/-- Total counterpart of `extractReferences` under non-throwing property
access. -/
def extractPure (pf : ParsedFile) : List ReferenceInfo :=
  let fm := pf.frontmatter
  let rt := pf.file.resourceType
  let domainRefs :=
    if rt = "domain" then
      listRefs (getField fm "services") ["service"] "services" ++
      listRefs (getField fm "domains") ["domain"] "domains" ++
      listRefs (getField fm "entities") ["entity"] "entities"
    else []
  let serviceRefs :=
    if rt = "service" then
      listRefs (getField fm "sends") ["event", "command", "query"] "sends" ++
      listRefs (getField fm "receives") ["event", "command", "query"] "receives" ++
      listRefs (getField fm "entities") ["entity"] "entities"
    else []
  let flowRefs :=
    if rt = "flow" ∧ truthy (getField fm "steps") = true ∧ jsIsArr (getField fm "steps") = true then
      flowStepRefsPure (jsElems (getField fm "steps")) 0
    else []
  let entityRefs :=
    if rt = "entity" ∧ truthy (getField fm "properties") = true ∧ jsIsArr (getField fm "properties") = true then
      entityPropRefsPure (jsElems (getField fm "properties")) 0
    else []
  let ownerRefs := idRefs (getField fm "owners") ["user", "team"] "owners"
  let memberRefs :=
    if rt = "team" then idRefs (getField fm "members") ["user"] "members" else []
  domainRefs ++ serviceRefs ++ flowRefs ++ entityRefs ++ ownerRefs ++ memberRefs

/-- The type label of an unresolved-reference message: the single type name
for one candidate, else all candidates joined with `/`
(reference-validator.ts line 202). -/
def typeLabel (possibleTypes : List String) : String :=
  if possibleTypes.length = 1 then possibleTypes.headD "" else strJoin "/" possibleTypes

/-- The validation error built for an unresolved reference from the read
`id` and `version` property values (reference-validator.ts lines 200-218). -/
def mkErrorFrom (pf : ParsedFile) (ri : ReferenceInfo) (refIdV refVersionV : JsValue) : ValidationError :=
  let versionStr := if truthy refVersionV = true then " (version: " ++ jsToString refVersionV ++ ")" else ""
  let rule :=
    if ri.field = "owners" then "refs/owner-exists"
    else if truthy refVersionV = true then "refs/valid-version-range"
    else "refs/resource-exists"
  { type := "reference"
    resource := pf.file.resourceType ++ "/" ++ pf.file.resourceId
    field := ri.field
    message := "Referenced " ++ typeLabel ri.possibleTypes ++ " \"" ++ jsToString refIdV ++ "\"" ++ versionStr ++ " does not exist"
    file := pf.file.relativePath
    rule := rule }

/-- The validation error built for an unresolved reference. -/
def mkError (pf : ParsedFile) (ri : ReferenceInfo) : ValidationError :=
  mkErrorFrom pf ri (jsGet ri.ref "id") (jsGet ri.ref "version")

/-- Model of `possibleTypes.some((type) => checkResourceExists(ref, type,
index))`: short-circuiting, with exceptions propagating. -/
def checkTypes (ref : JsValue) (index : ResourceIndex) : List String → Except String Bool
  | [] => pure false
  | t :: rest => do
      let b ← checkResourceExists ref t index
      if b then pure true else checkTypes ref index rest

/-- Validation of one extracted reference (reference-validator.ts lines
197-220): resolved references contribute nothing, unresolved ones exactly
one error. -/
def validateRef (pf : ParsedFile) (index : ResourceIndex) (ri : ReferenceInfo) : Except String (List ValidationError) := do
  let found ← checkTypes ri.ref index ri.possibleTypes
  if found then pure []
  else do
    let refVersionV ← getProp ri.ref "version"
    let refIdV ← getProp ri.ref "id"
    pure [mkErrorFrom pf ri refIdV refVersionV]

/-- Validation of all references extracted from one file, in order. -/
def validateFileRefs (pf : ParsedFile) (index : ResourceIndex) : List ReferenceInfo → Except String (List ValidationError)
  | [] => pure []
  | ri :: rest => do
      let es ← validateRef pf index ri
      let more ← validateFileRefs pf index rest
      pure (es ++ more)

/-- The orchestrator's loop over parsed files against a fixed index. -/
def validateAll (index : ResourceIndex) : List ParsedFile → Except String (List ValidationError)
  | [] => pure []
  | pf :: rest => do
      let refs ← extractReferences pf
      let es ← validateFileRefs pf index refs
      let more ← validateAll index rest
      pure (es ++ more)

/-- Embedding of `validateReferences` (reference-validator.ts lines
190-224). -/
def validateReferences (parsedFiles : List ParsedFile) : Except String (List ValidationError) :=
  validateAll (buildResourceIndex parsedFiles) parsedFiles

/-- Whether a file's reference extraction performs no throwing property
access (every flow step and entity property it iterates is a non-nullish
value). -/
def extractOkB (pf : ParsedFile) : Bool :=
  (if pf.file.resourceType = "flow" ∧ truthy (getField pf.frontmatter "steps") = true ∧ jsIsArr (getField pf.frontmatter "steps") = true then
    (jsElems (getField pf.frontmatter "steps")).all refOkB
  else true) &&
  (if pf.file.resourceType = "entity" ∧ truthy (getField pf.frontmatter "properties") = true ∧ jsIsArr (getField pf.frontmatter "properties") = true then
    (jsElems (getField pf.frontmatter "properties")).all refOkB
  else true)

/-- Whether validating a list of files performs no throwing property
access: extraction is throw-free and every extracted reference value is a
non-nullish receiver. -/
def allOkB (parsedFiles : List ParsedFile) : Bool :=
  parsedFiles.all (fun pf => extractOkB pf && (extractPure pf).all (fun ri => refOkB ri.ref))

/-- The error list `validateReferences` produces on throw-free input: one
error, built by `mkError`, for exactly those references no candidate type
resolves. -/
def validatePure (parsedFiles : List ParsedFile) : List ValidationError :=
  let index := buildResourceIndex parsedFiles
  parsedFiles.flatMap (fun pf =>
    ((extractPure pf).filter (fun ri => !ri.possibleTypes.any (fun t => checkPure ri.ref t index))).map
      (fun ri => mkError pf ri))

/-- Reference object carrying only an id. -/
def refNoVersion (id : String) : JsValue := JsValue.obj [("id", JsValue.str id)]

/-- Reference object carrying an id and a version string. -/
def refWithVersion (id version : String) : JsValue :=
  JsValue.obj [("id", JsValue.str id), ("version", JsValue.str version)]

/-- Example input: a user stored as `aSmith` whose frontmatter declares the
canonical id `asmith`. -/
def fileUserASmith : ParsedFile :=
  ⟨⟨"/catalog/users/aSmith.mdx", "users/aSmith.mdx", "user", "aSmith"⟩,
    [("id", JsValue.str "asmith")], "", ""⟩

/-- Example input: a user stored as `aSmith` whose frontmatter id is the
empty string (a JavaScript-truthiness edge case). -/
def fileUserASmithEmptyId : ParsedFile :=
  ⟨⟨"/catalog/users/aSmith.mdx", "users/aSmith.mdx", "user", "aSmith"⟩,
    [("id", JsValue.str "")], "", ""⟩

/-- Example input: a service whose only `sends` reference carries the empty
string as its version. -/
def fileSvcSendsEmptyVer : ParsedFile :=
  ⟨⟨"/catalog/services/s/index.mdx", "services/s/index.mdx", "service", "s"⟩,
    [("sends", JsValue.arr [JsValue.obj [("id", JsValue.str "X"), ("version", JsValue.str "")]])], "", ""⟩

/-- Example input: a service whose own frontmatter version is the empty
string. -/
def fileSvcEmptyVer : ParsedFile :=
  ⟨⟨"/catalog/services/s/index.mdx", "services/s/index.mdx", "service", "s"⟩,
    [("version", JsValue.str "")], "", ""⟩

/-- Example input: a flow whose `steps` list contains a null entry. -/
def fileFlowNullStep : ParsedFile :=
  ⟨⟨"/catalog/flows/f/index.mdx", "flows/f/index.mdx", "flow", "f"⟩,
    [("steps", JsValue.arr [JsValue.null])], "", ""⟩

/-- Example input: a command named `create-user` at version 1.0.0. -/
def fileCmdCreateUser : ParsedFile :=
  ⟨⟨"/catalog/commands/create-user/index.mdx", "commands/create-user/index.mdx", "command", "create-user"⟩,
    [("version", JsValue.str "1.0.0")], "", ""⟩

/-- Example input: a service sending one message that exists as a command
only and one message that exists nowhere. -/
def fileSvcMixedSends : ParsedFile :=
  ⟨⟨"/catalog/services/s/index.mdx", "services/s/index.mdx", "service", "s"⟩,
    [("sends", JsValue.arr [JsValue.obj [("id", JsValue.str "create-user")],
      JsValue.obj [("id", JsValue.str "missing-msg")]])], "", ""⟩

theorem strListHas_iff (s : List String) (v : String) : strListHas s v = true ↔ v ∈ s := by
  induction s with
  | nil => simp [strListHas]
  | cons a rest ih =>
      by_cases h : a = v
      · subst h
        simp [strListHas]
      · simp [strListHas, h, ih, List.mem_cons]
        intro hv
        exact absurd hv.symm h

theorem setAdd_ne_nil (s : List String) (v : String) : setAdd s v ≠ [] := by
  unfold setAdd
  by_cases h : strListHas s v = true
  · simp only [h, if_true]
    intro hnil
    rw [hnil] at h
    simp [strListHas] at h
  · simp only [h, if_false]
    simp

theorem mem_setAdd_self (s : List String) (v : String) : v ∈ setAdd s v := by
  unfold setAdd
  by_cases h : strListHas s v = true
  · simp only [h, if_true]
    exact (strListHas_iff s v).mp h
  · simp only [h, if_false]
    simp

theorem mem_setAdd_of_mem {s : List String} {v : String} (w : String) (h : w ∈ s) : w ∈ setAdd s v := by
  unfold setAdd
  by_cases hm : strListHas s v = true
  · simp only [hm, if_true]
    exact h
  · simp only [hm, if_false]
    exact List.mem_append_left _ h

theorem setAdd_eq_self {s : List String} {v : String} (h : v ∈ s) : setAdd s v = s := by
  unfold setAdd
  simp [(strListHas_iff s v).mpr h]

theorem alistFind_update {α : Type} (m : List (String × α)) (k k' : String) (f : Option α → α) :
    alistFind (alistUpdate m k f) k' =
      if k = k' then some (f (alistFind m k)) else alistFind m k' := by
  induction m with
  | nil =>
      by_cases h : k = k' <;> simp [alistUpdate, alistFind, h]
  | cons hd tl ih =>
      obtain ⟨a, v⟩ := hd
      by_cases h1 : a = k
      · subst h1
        by_cases h2 : a = k' <;> simp [alistUpdate, alistFind, h2]
      · by_cases h2 : a = k'
        · subst h2
          have hk : ¬ k = a := fun hx => h1 hx.symm
          simp [alistUpdate, alistFind, h1, hk]
        · simp [alistUpdate, alistFind, h1, h2, ih]

theorem alistUpdate_eq_self {α : Type} (m : List (String × α)) (k : String) (f : Option α → α)
    (v : α) (hfind : alistFind m k = some v) (hf : f (some v) = v) :
    alistUpdate m k f = m := by
  induction m with
  | nil => simp [alistFind] at hfind
  | cons hd tl ih =>
      obtain ⟨a, w⟩ := hd
      by_cases h1 : a = k
      · subst h1
        simp [alistFind] at hfind
        subst hfind
        simp [alistUpdate, hf]
      · simp [alistFind, h1] at hfind
        simp [alistUpdate, h1, ih hfind]

theorem getIdx_indexStep (index : ResourceIndex) (pf : ParsedFile) (t i : String) :
    getIdx (indexStep index pf) t i =
      if pf.file.resourceType = t ∧ indexKeyId pf = i then
        some (setAdd ((getIdx index t i).getD []) (versionToAdd pf))
      else getIdx index t i := by
  unfold indexStep getIdx
  rw [alistFind_update]
  by_cases h1 : pf.file.resourceType = t
  · rw [if_pos h1]
    simp only [Option.some_bind]
    rw [alistFind_update]
    by_cases h2 : indexKeyId pf = i
    · rw [if_pos h2, if_pos ⟨h1, h2⟩]
      cases hfind : alistFind index pf.file.resourceType with
      | none =>
          rw [← h1, hfind]
          simp [alistFind]
      | some m =>
          rw [← h1, hfind]
          simp [h2]
    · rw [if_neg h2, if_neg (fun hx : _ ∧ _ => h2 hx.2)]
      rw [← h1]
      cases hfind : alistFind index pf.file.resourceType with
      | none => simp [hfind, alistFind]
      | some m => simp [hfind]
  · rw [if_neg h1, if_neg (fun hx : _ ∧ _ => h1 hx.1)]

theorem getIdx_foldl_ne_nil (pfs : List ParsedFile) (index : ResourceIndex)
    (hidx : ∀ t i vs, getIdx index t i = some vs → vs ≠ []) :
    ∀ t i vs, getIdx (pfs.foldl indexStep index) t i = some vs → vs ≠ [] := by
  induction pfs generalizing index with
  | nil => exact hidx
  | cons pf rest ih =>
      intro t i vs hvs
      refine ih (indexStep index pf) ?_ t i vs hvs
      intro t' i' vs' hvs'
      rw [getIdx_indexStep] at hvs'
      by_cases hc : pf.file.resourceType = t' ∧ indexKeyId pf = i'
      · rw [if_pos hc] at hvs'
        cases hvs'
        exact setAdd_ne_nil _ _
      · rw [if_neg hc] at hvs'
        exact hidx t' i' vs' hvs'

theorem getIdx_foldl_none_iff (pfs : List ParsedFile) (index : ResourceIndex) (t i : String) :
    getIdx (pfs.foldl indexStep index) t i = none ↔
      getIdx index t i = none ∧ ∀ pf ∈ pfs, ¬(pf.file.resourceType = t ∧ indexKeyId pf = i) := by
  induction pfs generalizing index with
  | nil => simp
  | cons pf rest ih =>
      simp only [List.foldl_cons, ih, List.mem_cons]
      rw [getIdx_indexStep]
      by_cases hc : pf.file.resourceType = t ∧ indexKeyId pf = i
      · simp [hc]
      · simp only [if_neg hc]
        constructor
        · rintro ⟨h1, h2⟩
          refine ⟨h1, ?_⟩
          intro p hp
          rcases hp with hp | hp
          · subst hp; exact hc
          · exact h2 p hp
        · rintro ⟨h1, h2⟩
          exact ⟨h1, fun p hp => h2 p (Or.inr hp)⟩

theorem getIdx_indexStep_mem (index : ResourceIndex) (pf : ParsedFile) (t i : String)
    (vs : List String) (w : String) (h : getIdx index t i = some vs) (hw : w ∈ vs) :
    ∃ vs', getIdx (indexStep index pf) t i = some vs' ∧ w ∈ vs' := by
  rw [getIdx_indexStep]
  by_cases hc : pf.file.resourceType = t ∧ indexKeyId pf = i
  · rw [if_pos hc]
    refine ⟨_, rfl, ?_⟩
    rw [h]
    exact mem_setAdd_of_mem w hw
  · rw [if_neg hc]
    exact ⟨vs, h, hw⟩

theorem getIdx_foldl_mem (pfs : List ParsedFile) (index : ResourceIndex) (t i : String)
    (vs : List String) (w : String) (h : getIdx index t i = some vs) (hw : w ∈ vs) :
    ∃ vs', getIdx (pfs.foldl indexStep index) t i = some vs' ∧ w ∈ vs' := by
  induction pfs generalizing index vs with
  | nil => exact ⟨vs, h, hw⟩
  | cons pf rest ih =>
      obtain ⟨vs', h', hw'⟩ := getIdx_indexStep_mem index pf t i vs w h hw
      exact ih (indexStep index pf) vs' h' hw'

theorem buildIndex_contains (pfs : List ParsedFile) (pf : ParsedFile) (hmem : pf ∈ pfs) :
    ∃ vs, getIdx (buildResourceIndex pfs) pf.file.resourceType (indexKeyId pf) = some vs ∧
      versionToAdd pf ∈ vs := by
  unfold buildResourceIndex
  suffices h : ∀ index : ResourceIndex,
      ∃ vs, getIdx (pfs.foldl indexStep index) pf.file.resourceType (indexKeyId pf) = some vs ∧
        versionToAdd pf ∈ vs by
    exact h []
  induction pfs with
  | nil => cases hmem
  | cons q rest ih =>
      intro index
      rcases List.mem_cons.mp hmem with hq | hq
      · subst hq
        simp only [List.foldl_cons]
        have hstep : ∃ vs', getIdx (indexStep index pf) pf.file.resourceType (indexKeyId pf) = some vs' ∧
            versionToAdd pf ∈ vs' := by
          rw [getIdx_indexStep]
          rw [if_pos ⟨rfl, rfl⟩]
          exact ⟨_, rfl, mem_setAdd_self _ _⟩
        obtain ⟨vs', h', hw'⟩ := hstep
        exact getIdx_foldl_mem rest (indexStep index pf) _ _ vs' (versionToAdd pf) h' hw'
      · simp only [List.foldl_cons]
        exact ih hq (indexStep index q)

theorem indexStep_eq_self (index : ResourceIndex) (pf : ParsedFile) (vs : List String)
    (h : getIdx index pf.file.resourceType (indexKeyId pf) = some vs)
    (hv : versionToAdd pf ∈ vs) : indexStep index pf = index := by
  unfold indexStep
  unfold getIdx at h
  cases hfind : alistFind index pf.file.resourceType with
  | none => rw [hfind] at h; simp at h
  | some tmap =>
      rw [hfind] at h
      simp only [Option.some_bind] at h
      refine alistUpdate_eq_self index pf.file.resourceType _ tmap hfind ?_
      simp only [Option.getD_some]
      refine alistUpdate_eq_self tmap (indexKeyId pf) _ vs h ?_
      simp only [Option.getD_some]
      exact setAdd_eq_self hv

theorem except_ok_bind {α β : Type} (a : α) (f : α → Except String β) :
    (Except.ok a >>= f) = f a := rfl

theorem except_pure {α : Type} (a : α) : (pure a : Except String α) = Except.ok a := rfl

theorem getProp_eq (v : JsValue) (k : String) (h : refOkB v = true) :
    getProp v k = Except.ok (jsGet v k) := by
  cases v with
  | undef => simp [refOkB] at h
  | null => simp [refOkB] at h
  | str s => rfl
  | num n => rfl
  | boolean b => rfl
  | arr xs => rfl
  | obj fs => rfl

theorem checkResourceExists_eq (ref : JsValue) (t : String) (index : ResourceIndex)
    (h : refOkB ref = true) :
    checkResourceExists ref t index = Except.ok (checkPure ref t index) := by
  unfold checkResourceExists checkPure
  rw [getProp_eq ref "id" h]
  simp only [except_ok_bind]
  cases getIdx index t (propKey (jsGet ref "id")) with
  | none => rfl
  | some vs =>
      by_cases hlen : vs.length = 0
      · simp [hlen, except_pure]
      · simp only [if_neg hlen]
        rw [getProp_eq ref "version" h]
        rfl

theorem checkTypes_eq (ref : JsValue) (index : ResourceIndex) (ts : List String)
    (h : refOkB ref = true) :
    checkTypes ref index ts = Except.ok (ts.any (fun t => checkPure ref t index)) := by
  induction ts with
  | nil => rfl
  | cons t rest ih =>
      simp only [checkTypes, checkResourceExists_eq ref t index h, except_ok_bind]
      by_cases hc : checkPure ref t index = true
      · simp [hc, except_pure]
      · simp only [Bool.not_eq_true] at hc
        simp [hc, ih]

theorem flowStepRefs_eq (steps : List JsValue) (i : Nat)
    (h : ∀ v ∈ steps, refOkB v = true) :
    flowStepRefs steps i = Except.ok (flowStepRefsPure steps i) := by
  induction steps generalizing i with
  | nil => rfl
  | cons step rest ih =>
      have hs : refOkB step = true := h step (by simp)
      have hr : ∀ v ∈ rest, refOkB v = true := fun v hv => h v (by simp [hv])
      simp only [flowStepRefs, flowStepRefsPure, getProp_eq step "message" hs,
        getProp_eq step "service" hs, except_ok_bind, ih (i + 1) hr]
      rfl

theorem entityPropRefs_eq (props : List JsValue) (i : Nat)
    (h : ∀ v ∈ props, refOkB v = true) :
    entityPropRefs props i = Except.ok (entityPropRefsPure props i) := by
  induction props generalizing i with
  | nil => rfl
  | cons prop rest ih =>
      have hs : refOkB prop = true := h prop (by simp)
      have hr : ∀ v ∈ rest, refOkB v = true := fun v hv => h v (by simp [hv])
      simp only [entityPropRefs, entityPropRefsPure, getProp_eq prop "references" hs,
        except_ok_bind, ih (i + 1) hr]
      rfl

theorem extractReferences_eq (pf : ParsedFile) (h : extractOkB pf = true) :
    extractReferences pf = Except.ok (extractPure pf) := by
  have h' := h
  unfold extractOkB at h'
  rw [Bool.and_eq_true] at h'
  obtain ⟨h1, h2⟩ := h'
  simp only [extractReferences, extractPure]
  by_cases hf : pf.file.resourceType = "flow" ∧ truthy (getField pf.frontmatter "steps") = true ∧ jsIsArr (getField pf.frontmatter "steps") = true
  · rw [if_pos hf] at h1
    rw [if_pos hf, if_pos hf, flowStepRefs_eq _ 0 (List.all_eq_true.mp h1), except_ok_bind]
    by_cases he : pf.file.resourceType = "entity" ∧ truthy (getField pf.frontmatter "properties") = true ∧ jsIsArr (getField pf.frontmatter "properties") = true
    · rw [if_pos he] at h2
      rw [if_pos he, if_pos he, entityPropRefs_eq _ 0 (List.all_eq_true.mp h2), except_ok_bind]
      rfl
    · rw [if_neg he, if_neg he]
      rfl
  · rw [if_neg hf, if_neg hf]
    simp only [except_pure, except_ok_bind]
    by_cases he : pf.file.resourceType = "entity" ∧ truthy (getField pf.frontmatter "properties") = true ∧ jsIsArr (getField pf.frontmatter "properties") = true
    · rw [if_pos he] at h2
      rw [if_pos he, if_pos he, entityPropRefs_eq _ 0 (List.all_eq_true.mp h2), except_ok_bind]
    · rw [if_neg he, if_neg he]

theorem validateRef_eq (pf : ParsedFile) (index : ResourceIndex) (ri : ReferenceInfo)
    (h : refOkB ri.ref = true) :
    validateRef pf index ri =
      Except.ok (if ri.possibleTypes.any (fun t => checkPure ri.ref t index) = true then []
        else [mkError pf ri]) := by
  unfold validateRef
  rw [checkTypes_eq ri.ref index ri.possibleTypes h]
  simp only [except_ok_bind]
  by_cases hc : ri.possibleTypes.any (fun t => checkPure ri.ref t index) = true
  · simp [hc, except_pure]
  · simp only [Bool.not_eq_true] at hc
    simp only [hc, if_neg, Bool.false_eq_true, if_false]
    rw [getProp_eq ri.ref "version" h]
    simp only [except_ok_bind]
    rw [getProp_eq ri.ref "id" h]
    simp only [except_ok_bind]
    rfl

theorem validateFileRefs_eq (pf : ParsedFile) (index : ResourceIndex) (refs : List ReferenceInfo)
    (h : ∀ ri ∈ refs, refOkB ri.ref = true) :
    validateFileRefs pf index refs =
      Except.ok ((refs.filter (fun ri => !ri.possibleTypes.any (fun t => checkPure ri.ref t index))).map
        (fun ri => mkError pf ri)) := by
  induction refs with
  | nil => rfl
  | cons ri rest ih =>
      have hh := h ri (by simp)
      have hr : ∀ x ∈ rest, refOkB x.ref = true := fun x hx => h x (by simp [hx])
      simp only [validateFileRefs, validateRef_eq pf index ri hh, except_ok_bind, ih hr,
        List.filter_cons]
      by_cases hc : ri.possibleTypes.any (fun t => checkPure ri.ref t index) = true
      · simp [hc, except_pure]
      · simp only [Bool.not_eq_true] at hc
        simp [hc, except_pure]

theorem validateAll_eq (index : ResourceIndex) (pfs : List ParsedFile)
    (h : ∀ pf ∈ pfs, extractOkB pf = true ∧ ∀ ri ∈ extractPure pf, refOkB ri.ref = true) :
    validateAll index pfs = Except.ok (pfs.flatMap (fun pf =>
      ((extractPure pf).filter (fun ri => !ri.possibleTypes.any (fun t => checkPure ri.ref t index))).map
        (fun ri => mkError pf ri))) := by
  induction pfs with
  | nil => rfl
  | cons pf rest ih =>
      obtain ⟨h1, h2⟩ := h pf (by simp)
      simp only [validateAll, extractReferences_eq pf h1, except_ok_bind,
        validateFileRefs_eq pf index _ (fun ri hri => h2 ri hri),
        ih (fun q hq => h q (by simp [hq])), List.flatMap_cons]
      rfl

theorem validateReferences_eq (pfs : List ParsedFile) (h : allOkB pfs = true) :
    validateReferences pfs = Except.ok (validatePure pfs) := by
  unfold allOkB at h
  unfold validateReferences validatePure
  refine validateAll_eq (buildResourceIndex pfs) pfs ?_
  intro pf hpf
  have hm := List.all_eq_true.mp h pf hpf
  rw [Bool.and_eq_true] at hm
  exact ⟨hm.1, fun ri hri => List.all_eq_true.mp hm.2 ri hri⟩

theorem versionSatisfied_absent (vs : List String) : versionSatisfied JsValue.undef vs = true := rfl

theorem versionSatisfied_emptyStr (vs : List String) : versionSatisfied (JsValue.str "") vs = true := rfl

theorem versionSatisfied_latest (vs : List String) (h : vs ≠ []) :
    versionSatisfied (JsValue.str "latest") vs = true := by
  cases vs with
  | nil => exact absurd rfl h
  | cons a rest => simp [versionSatisfied, truthy]

theorem versionSatisfied_member (vs : List String) (v : String) (hmem : v ∈ vs) :
    versionSatisfied (JsValue.str v) vs = true := by
  by_cases h0 : v = ""
  · subst h0; rfl
  · by_cases h1 : v = "latest"
    · subst h1
      exact versionSatisfied_latest vs (List.ne_nil_of_mem hmem)
    · simp [versionSatisfied, truthy, h0, h1, (strListHas_iff vs v).mpr hmem]

theorem versionSatisfied_semver (vs : List String) (v : String)
    (h0 : v ≠ "") (h1 : v ≠ "latest") (h2 : strListHas vs v = false) :
    versionSatisfied (JsValue.str v) vs =
      ((vs.filter (fun w => w ≠ "latest" && semverValid w)).any (fun av => semverSatisfies av v) ||
        (strHasDotX v &&
          (vs.filter (fun w => w ≠ "latest" && semverValid w)).any
            (fun av => strStartsWith av (strStripDotX v)))) := by
  simp only [versionSatisfied, truthy, h0, if_false, h2]
  rw [if_neg (by simp : ¬ (true = false)), if_neg h1, if_neg (by simp : ¬ (false = true))]
  cases hA : (vs.filter (fun w => w ≠ "latest" && semverValid w)).any (fun av => semverSatisfies av v) with
  | true => simp [hA]
  | false =>
      simp only [hA, Bool.false_eq_true, if_false, Bool.false_or]
      cases hX : strHasDotX v with
      | true => simp [hX]
      | false => simp [hX]

theorem checkPure_refNoVersion (id t : String) (index : ResourceIndex) :
    checkPure (refNoVersion id) t index =
      match getIdx index t id with
      | none => false
      | some vs => if vs.length = 0 then false else true := by
  unfold checkPure
  rw [show propKey (jsGet (refNoVersion id) "id") = id from rfl,
    show jsGet (refNoVersion id) "version" = JsValue.undef from rfl]
  cases getIdx index t id with
  | none => rfl
  | some vs => by_cases h : vs.length = 0 <;> simp [h, versionSatisfied_absent]

theorem checkPure_refWithVersion (id v t : String) (index : ResourceIndex) :
    checkPure (refWithVersion id v) t index =
      match getIdx index t id with
      | none => false
      | some vs => if vs.length = 0 then false else versionSatisfied (JsValue.str v) vs := by
  unfold checkPure
  rw [show propKey (jsGet (refWithVersion id v) "id") = id from rfl,
    show jsGet (refWithVersion id v) "version" = JsValue.str v from rfl]

theorem checkPure_refNoVersion_some (id t : String) (index : ResourceIndex) (vs : List String)
    (h : getIdx index t id = some vs) :
    checkPure (refNoVersion id) t index = if vs.length = 0 then false else true := by
  rw [checkPure_refNoVersion, h]

theorem checkPure_refNoVersion_none (id t : String) (index : ResourceIndex)
    (h : getIdx index t id = none) :
    checkPure (refNoVersion id) t index = false := by
  rw [checkPure_refNoVersion, h]

theorem checkPure_refWithVersion_some (id v t : String) (index : ResourceIndex) (vs : List String)
    (h : getIdx index t id = some vs) :
    checkPure (refWithVersion id v) t index =
      if vs.length = 0 then false else versionSatisfied (JsValue.str v) vs := by
  rw [checkPure_refWithVersion, h]

theorem checkPure_refWithVersion_none (id v t : String) (index : ResourceIndex)
    (h : getIdx index t id = none) :
    checkPure (refWithVersion id v) t index = false := by
  rw [checkPure_refWithVersion, h]

theorem buildIndex_ne_nil (pfs : List ParsedFile) (t i : String) (vs : List String)
    (h : getIdx (buildResourceIndex pfs) t i = some vs) : vs ≠ [] := by
  refine getIdx_foldl_ne_nil pfs [] ?_ t i vs h
  intro t' i' vs' h'
  simp [getIdx, alistFind] at h'

/-- C2: a reference with no version field, or with the literal token
`latest`, to a (type, id) whose version set is in the index is satisfied
exactly when that version set is non-empty (in particular when the set
holds only the literal `latest` token), and a reference to a (type, id)
with no index entry is never satisfied, whatever version it carries. -/
theorem c2_absent_or_latest_existence (index : ResourceIndex) (t id : String) :
    (∀ vs, getIdx index t id = some vs →
      ((checkPure (refNoVersion id) t index = true ↔ vs ≠ []) ∧
        (checkPure (refWithVersion id "latest") t index = true ↔ vs ≠ []))) ∧
    (getIdx index t id = none →
      checkPure (refNoVersion id) t index = false ∧
      ∀ v, checkPure (refWithVersion id v) t index = false) := by
  constructor
  · intro vs hvs
    constructor
    · rw [checkPure_refNoVersion_some id t index vs hvs]
      by_cases h : vs.length = 0
      · simp [h, List.length_eq_zero.mp h]
      · have hne : vs ≠ [] := fun hn => h (by simp [hn])
        simp [h, hne]
    · rw [checkPure_refWithVersion_some id "latest" t index vs hvs]
      by_cases h : vs.length = 0
      · simp [h, List.length_eq_zero.mp h]
      · have hne : vs ≠ [] := fun hn => h (by simp [hn])
        simp [h, hne, versionSatisfied_latest vs hne]
  · intro hnone
    exact ⟨checkPure_refNoVersion_none id t index hnone,
      fun v => checkPure_refWithVersion_none id v t index hnone⟩

/-- C2 witness: with `E` indexed under `event` with version set holding
only the literal `latest`, an unversioned reference and a `latest`
reference to it are satisfied; with an empty index no reference to `E` is
satisfied. -/
theorem c2_witness :
    checkPure (refNoVersion "E") "event" [("event", [("E", ["latest"])])] = true ∧
    checkPure (refWithVersion "E" "latest") "event" [("event", [("E", ["latest"])])] = true ∧
    checkPure (refNoVersion "E") "event" [] = false :=
  ⟨((c2_absent_or_latest_existence [("event", [("E", ["latest"])])] "event" "E").1 ["latest"] rfl).1.mpr
      (by simp),
    ((c2_absent_or_latest_existence [("event", [("E", ["latest"])])] "event" "E").1 ["latest"] rfl).2.mpr
      (by simp),
    ((c2_absent_or_latest_existence [] "event" "E").2 rfl).1⟩

/-- C3: a truthy requested version other than `latest` that is not
verbatim in the available set is satisfied exactly when some available
entry that is a valid semantic version distinct from the literal `latest`
satisfies it as a semver range, or — when the token contains `.x` — when
some such entry string-starts-with the token with all `.x` occurrences
stripped; in particular `^1.0.0` is satisfied by 1.2.0 but not by 2.0.0
alone, and `0.0.x` by 0.0.1/0.0.5 but not by 0.2.1.  (The empty requested
version is excluded: the code treats it as absent, see C10.) -/
theorem c3_range_and_xpattern :
    (∀ (index : ResourceIndex) (t id : String) (vs : List String) (v : String),
      getIdx index t id = some vs → vs ≠ [] → v ≠ "" → v ≠ "latest" → v ∉ vs →
      (checkPure (refWithVersion id v) t index = true ↔
        ((∃ a ∈ vs.filter (fun w => w ≠ "latest" && semverValid w), semverSatisfies a v = true) ∨
          (strHasDotX v = true ∧
            ∃ a ∈ vs.filter (fun w => w ≠ "latest" && semverValid w),
              strStartsWith a (strStripDotX v) = true)))) ∧
    checkPure (refWithVersion "m" "^1.0.0") "event" [("event", [("m", ["1.2.0"])])] = true ∧
    checkPure (refWithVersion "m" "^1.0.0") "event" [("event", [("m", ["2.0.0"])])] = false ∧
    checkPure (refWithVersion "m" "0.0.x") "event" [("event", [("m", ["0.0.1", "0.0.5"])])] = true ∧
    checkPure (refWithVersion "m" "0.0.x") "event" [("event", [("m", ["0.2.1"])])] = false := by
  refine ⟨?_, rfl, rfl, rfl, rfl⟩
  intro index t id vs v hidx hne h0 h1 hmem
  rw [checkPure_refWithVersion_some id v t index vs hidx]
  have hlen : ¬ vs.length = 0 := by simp [hne]
  rw [if_neg hlen]
  have hhas : strListHas vs v = false := by
    cases hh : strListHas vs v with
    | false => rfl
    | true => exact absurd ((strListHas_iff vs v).mp hh) hmem
  rw [versionSatisfied_semver vs v h0 h1 hhas]
  simp only [Bool.or_eq_true, Bool.and_eq_true, List.any_eq_true, List.mem_filter]

/-- C3 witness: the caret range is decided by the semver branch on a
concrete index. -/
theorem c3_witness :
    checkPure (refWithVersion "m" "^1.0.0") "event" [("event", [("m", ["1.2.0"])])] = true :=
  (c3_range_and_xpattern.1 [("event", [("m", ["1.2.0"])])] "event" "m" ["1.2.0"] "^1.0.0"
      rfl (by simp) (by simp) (by simp) (by simp)).mpr
    (Or.inl ⟨"1.2.0", by decide, by decide⟩)

/-- C4: a requested version that is verbatim a member of the available set
is always satisfied, with no assumption on semantic-version validity of
the stored string — exact string match is decided before any semantic
interpretation, so a non-semver stored version resolves a reference
requesting exactly that string. -/
theorem c4_exact_match_first :
    (∀ (index : ResourceIndex) (t id : String) (vs : List String) (v : String),
      getIdx index t id = some vs → v ∈ vs →
      checkPure (refWithVersion id v) t index = true) ∧
    semverValid "not.semver!" = false ∧
    checkPure (refWithVersion "X" "not.semver!") "event" [("event", [("X", ["not.semver!"])])] = true := by
  refine ⟨?_, rfl, rfl⟩
  intro index t id vs v hidx hmem
  rw [checkPure_refWithVersion_some id v t index vs hidx]
  have hlen : ¬ vs.length = 0 := by simp [List.ne_nil_of_mem hmem]
  rw [if_neg hlen]
  exact versionSatisfied_member vs v hmem

/-- C4 witness: the general exact-match theorem applied to a stored
version string that is not valid semver. -/
theorem c4_witness :
    checkPure (refWithVersion "X" "not.semver!") "event" [("event", [("X", ["not.semver!"])])] = true :=
  c4_exact_match_first.1 [("event", [("X", ["not.semver!"])])] "event" "X" ["not.semver!"]
    "not.semver!" rfl (by simp)

/-- C9: in an index built by `buildResourceIndex`, every present (type, id)
entry has a non-empty version set, and an entry is absent exactly when no
input resource has that resource type and canonical index id. -/
theorem c9_index_invariants (pfs : List ParsedFile) (t i : String) :
    (∀ vs, getIdx (buildResourceIndex pfs) t i = some vs → vs ≠ []) ∧
    (getIdx (buildResourceIndex pfs) t i = none ↔
      ∀ pf ∈ pfs, ¬(pf.file.resourceType = t ∧ indexKeyId pf = i)) := by
  constructor
  · exact fun vs h => buildIndex_ne_nil pfs t i vs h
  · unfold buildResourceIndex
    rw [getIdx_foldl_none_iff]
    simp [getIdx, alistFind]

/-- C9 witness: the invariants applied to the one-command catalog. -/
theorem c9_witness :
    (["1.0.0"] : List String) ≠ [] ∧
    getIdx (buildResourceIndex ([] : List ParsedFile)) "service" "s" = none :=
  ⟨(c9_index_invariants [fileCmdCreateUser] "command" "create-user").1 ["1.0.0"] rfl,
    (c9_index_invariants [] "service" "s").2.mpr (by simp)⟩

/-- C10: a reference whose version field is the empty string is treated by
the matcher exactly like a reference with no version field, and against an
index built by `buildResourceIndex` it is satisfied exactly when the
referenced (type, id) has an entry, whatever versions that entry holds. -/
theorem c10_empty_version_like_absent :
    (∀ (index : ResourceIndex) (t id : String),
      checkPure (refWithVersion id "") t index = checkPure (refNoVersion id) t index) ∧
    (∀ (pfs : List ParsedFile) (t id : String),
      checkPure (refWithVersion id "") t (buildResourceIndex pfs) = true ↔
        getIdx (buildResourceIndex pfs) t id ≠ none) := by
  constructor
  · intro index t id
    cases hidx : getIdx index t id with
    | none =>
        rw [checkPure_refWithVersion_none id "" t index hidx,
          checkPure_refNoVersion_none id t index hidx]
    | some vs =>
        rw [checkPure_refWithVersion_some id "" t index vs hidx,
          checkPure_refNoVersion_some id t index vs hidx]
        by_cases h : vs.length = 0 <;> simp [h, versionSatisfied_emptyStr]
  · intro pfs t id
    cases hidx : getIdx (buildResourceIndex pfs) t id with
    | none => simp [checkPure_refWithVersion_none id "" t _ hidx, hidx]
    | some vs =>
        have hne := buildIndex_ne_nil pfs t id vs hidx
        have hlen : ¬ vs.length = 0 := by simp [hne]
        rw [checkPure_refWithVersion_some id "" t _ vs hidx]
        simp [hlen, versionSatisfied_emptyStr, hidx]

/-- C1: on throw-free input (see C8 for the throwing case),
`validateReferences` returns exactly one error, built by `mkError`, for
each extracted reference that no candidate type in its `possibleTypes`
resolves against the index, and no error for a reference that any single
candidate type resolves; every reference of every resource is checked and
all resulting errors are returned. -/
theorem c1_validateReferences_unresolved_iff (pfs : List ParsedFile) (h : allOkB pfs = true) :
    validateReferences pfs = Except.ok (pfs.flatMap (fun pf =>
      ((extractPure pf).filter
        (fun ri => !ri.possibleTypes.any (fun t => checkPure ri.ref t (buildResourceIndex pfs)))).map
        (fun ri => mkError pf ri))) := by
  rw [validateReferences_eq pfs h]
  rfl

/-- C1 witness: a service sends one message that exists as a command only
(no error) and one missing message (exactly one error). -/
theorem c1_witness :
    allOkB [fileSvcMixedSends, fileCmdCreateUser] = true ∧
    validateReferences [fileSvcMixedSends, fileCmdCreateUser] = Except.ok
      [{ type := "reference", resource := "service/s", field := "sends",
         message := "Referenced event/command/query \"missing-msg\" does not exist",
         file := "services/s/index.mdx", rule := "refs/resource-exists" }] :=
  ⟨by rfl, ((c1_validateReferences_unresolved_iff [fileSvcMixedSends, fileCmdCreateUser] (by rfl)).trans (by rfl))⟩

/-- C5 counterexample: a user stored as `aSmith` whose frontmatter carries
the string id `""` is indexed under the storage id `aSmith` and not under
the frontmatter id — the code requires the id to be truthy, so the claim
as stated fails for the empty-string id. -/
theorem c5_counterexample :
    getField fileUserASmithEmptyId.frontmatter "id" = JsValue.str "" ∧
    fileUserASmithEmptyId.file.resourceType = "user" ∧
    getIdx (buildResourceIndex [fileUserASmithEmptyId]) "user" "" = none ∧
    getIdx (buildResourceIndex [fileUserASmithEmptyId]) "user" "aSmith" = some ["latest"] :=
  ⟨rfl, rfl, rfl, rfl⟩

/-- C5 amended: for user, team and domain resources whose frontmatter id is
a truthy (non-empty) string, that id is the index key; for any other
resource type, and for a missing, non-string or empty-string id, the
storage-derived resource id is the key; every consumed resource gets an
entry under its key; and the `aSmith`/`asmith` aliasing example satisfies a
reference to `asmith` and is not indexed under `aSmith`. -/
theorem c5_canonical_id_amended :
    (∀ (pf : ParsedFile) (s : String),
      (pf.file.resourceType = "user" ∨ pf.file.resourceType = "team" ∨ pf.file.resourceType = "domain") →
      getField pf.frontmatter "id" = JsValue.str s → s ≠ "" → indexKeyId pf = s) ∧
    (∀ pf : ParsedFile,
      ¬(pf.file.resourceType = "user" ∨ pf.file.resourceType = "team" ∨ pf.file.resourceType = "domain") →
      indexKeyId pf = pf.file.resourceId) ∧
    (∀ pf : ParsedFile, (∀ s : String, getField pf.frontmatter "id" = JsValue.str s → s = "") →
      indexKeyId pf = pf.file.resourceId) ∧
    (∀ (pfs : List ParsedFile) (pf : ParsedFile), pf ∈ pfs →
      getIdx (buildResourceIndex pfs) pf.file.resourceType (indexKeyId pf) ≠ none) ∧
    (checkPure (refNoVersion "asmith") "user" (buildResourceIndex [fileUserASmith]) = true ∧
      getIdx (buildResourceIndex [fileUserASmith]) "user" "aSmith" = none) := by
  refine ⟨?_, ?_, ?_, ?_, rfl, rfl⟩
  · intro pf s hty hid hs
    simp only [indexKeyId]
    rw [hid]
    rw [if_pos ⟨hty, by simp [truthy, hs], rfl⟩]
    rfl
  · intro pf hty
    simp only [indexKeyId]
    rw [if_neg (fun hx : _ ∧ _ => hty hx.1)]
  · intro pf hall
    simp only [indexKeyId]
    by_cases hc : (pf.file.resourceType = "user" ∨ pf.file.resourceType = "team" ∨ pf.file.resourceType = "domain")
        ∧ truthy (getField pf.frontmatter "id") = true ∧ jsIsStr (getField pf.frontmatter "id") = true
    · obtain ⟨hty, htr, his⟩ := hc
      cases hfid : getField pf.frontmatter "id" with
      | str s =>
          rw [hfid] at htr
          have hs := hall s hfid
          subst hs
          simp [truthy] at htr
      | undef => rw [hfid] at his; simp [jsIsStr] at his
      | null => rw [hfid] at his; simp [jsIsStr] at his
      | num n => rw [hfid] at his; simp [jsIsStr] at his
      | boolean b => rw [hfid] at his; simp [jsIsStr] at his
      | arr xs => rw [hfid] at his; simp [jsIsStr] at his
      | obj fs => rw [hfid] at his; simp [jsIsStr] at his
    · rw [if_neg hc]
  · intro pfs pf hmem
    obtain ⟨vs, hvs, _⟩ := buildIndex_contains pfs pf hmem
    rw [hvs]
    simp

/-- C5 witness: the canonical-id rule and the indexing conjunct applied to
the `aSmith`/`asmith` user. -/
theorem c5_witness :
    indexKeyId fileUserASmith = "asmith" ∧
    getIdx (buildResourceIndex [fileUserASmith]) "user" (indexKeyId fileUserASmith) ≠ none :=
  ⟨c5_canonical_id_amended.1 fileUserASmith "asmith" (Or.inl (by rfl)) (by rfl) (by simp),
    c5_canonical_id_amended.2.2.2.1 [fileUserASmith] fileUserASmith (by simp)⟩

/-- C6 counterexample: a `sends` reference carrying the explicit version
`""` is unresolved, yet its error message has no ` (version: ...)` segment
and its rule is `refs/resource-exists` rather than
`refs/valid-version-range` — the code tests the version field for
truthiness, so the claim as stated fails for the empty-string version. -/
theorem c6_counterexample :
    jsGet (JsValue.obj [("id", JsValue.str "X"), ("version", JsValue.str "")]) "version" = JsValue.str "" ∧
    validateReferences [fileSvcSendsEmptyVer] = Except.ok
      [{ type := "reference", resource := "service/s", field := "sends",
         message := "Referenced event/command/query \"X\" does not exist",
         file := "services/s/index.mdx", rule := "refs/resource-exists" }] :=
  ⟨rfl, rfl⟩

/-- C6 amended: on throw-free input the emitted errors are exactly the
`mkError` records of the unresolved references, and such a record carries
message `Referenced <types> "<id>"`, then ` (version: <v>)` exactly when
the reference carries a truthy (non-empty) version, then ` does not
exist`; the type label is the single name for one candidate type and the
`/`-join otherwise; the resource key is the referencing resource's
storage-derived `<type>/<id>`; and the rule is `refs/owner-exists` for the
`owners` field, else `refs/valid-version-range` for a truthy version, else
`refs/resource-exists`. -/
theorem c6_error_shape_amended :
    (∀ pfs : List ParsedFile, allOkB pfs = true →
      validateReferences pfs = Except.ok (validatePure pfs)) ∧
    (∀ (pf : ParsedFile) (ri : ReferenceInfo) (i : String),
      jsGet ri.ref "id" = JsValue.str i →
      ((mkError pf ri).type = "reference" ∧
        (mkError pf ri).resource = pf.file.resourceType ++ "/" ++ pf.file.resourceId ∧
        (mkError pf ri).field = ri.field ∧
        (mkError pf ri).file = pf.file.relativePath ∧
        (∀ v : String, jsGet ri.ref "version" = JsValue.str v → v ≠ "" →
          (mkError pf ri).message =
            "Referenced " ++ typeLabel ri.possibleTypes ++ " \"" ++ i ++ "\"" ++ (" (version: " ++ v ++ ")") ++ " does not exist" ∧
          (mkError pf ri).rule =
            (if ri.field = "owners" then "refs/owner-exists" else "refs/valid-version-range")) ∧
        ((jsGet ri.ref "version" = JsValue.undef ∨ jsGet ri.ref "version" = JsValue.str "") →
          (mkError pf ri).message =
            "Referenced " ++ typeLabel ri.possibleTypes ++ " \"" ++ i ++ "\"" ++ " does not exist" ∧
          (mkError pf ri).rule =
            (if ri.field = "owners" then "refs/owner-exists" else "refs/resource-exists")))) ∧
    (∀ t : String, typeLabel [t] = t) ∧
    (∀ ts : List String, ts.length ≠ 1 → typeLabel ts = strJoin "/" ts) := by
  refine ⟨fun pfs h => validateReferences_eq pfs h, ?_, ?_, ?_⟩
  · intro pf ri i hid
    refine ⟨rfl, rfl, rfl, rfl, ?_, ?_⟩
    · intro v hv hne
      simp only [mkError, mkErrorFrom, hid, hv]
      constructor
      · simp [truthy, hne, jsToString, jsToStringFuel]
      · simp [truthy, hne]
    · intro hv
      rcases hv with hv | hv <;>
        simp only [mkError, mkErrorFrom, hid, hv] <;>
        exact ⟨by simp [truthy, jsToString, jsToStringFuel], by simp [truthy]⟩
  · intro t
    simp [typeLabel]
  · intro ts h
    simp [typeLabel, h]

/-- C6 witness: the amended error shape applied to an unresolved versioned
`sends` reference. -/
theorem c6_witness :
    (mkError fileCmdCreateUser
      ⟨refWithVersion "user-created" "2.0.0", ["event", "command", "query"], "sends"⟩).message =
      "Referenced event/command/query \"user-created\" (version: 2.0.0) does not exist" :=
  (((c6_error_shape_amended.2.1 fileCmdCreateUser
      ⟨refWithVersion "user-created" "2.0.0", ["event", "command", "query"], "sends"⟩
      "user-created" (by rfl)).2.2.2.2.1 "2.0.0" (by rfl) (by simp)).1).trans (by rfl)

/-- C7 counterexample: a service whose frontmatter version is the (present,
string-typed) empty string contributes the literal `latest`, not `""`, to
its version set — the code tests the version for truthiness, so the claim
as stated fails for the empty-string version. -/
theorem c7_counterexample :
    getField fileSvcEmptyVer.frontmatter "version" = JsValue.str "" ∧
    buildResourceIndex [fileSvcEmptyVer] = [("service", [("s", ["latest"])])] ∧
    "" ∉ (["latest"] : List String) :=
  ⟨rfl, rfl, by simp⟩

/-- C7 amended: the version a resource contributes is its frontmatter
version when that is a truthy (non-empty) string and the literal `latest`
otherwise (including missing or non-string versions — building never
fails); the built index's set at the resource's (type, canonical id) entry
contains that contribution; and re-consuming a resource whose contribution
is already in its entry leaves the index unchanged. -/
theorem c7_version_set_amended :
    (∀ (pf : ParsedFile) (s : String),
      getField pf.frontmatter "version" = JsValue.str s → s ≠ "" → versionToAdd pf = s) ∧
    (∀ pf : ParsedFile, (∀ s : String, getField pf.frontmatter "version" = JsValue.str s → s = "") →
      versionToAdd pf = "latest") ∧
    (∀ (pfs : List ParsedFile) (pf : ParsedFile), pf ∈ pfs →
      ∃ vs, getIdx (buildResourceIndex pfs) pf.file.resourceType (indexKeyId pf) = some vs ∧
        versionToAdd pf ∈ vs) ∧
    (∀ (pfs : List ParsedFile) (pf : ParsedFile) (vs : List String),
      getIdx (buildResourceIndex pfs) pf.file.resourceType (indexKeyId pf) = some vs →
      versionToAdd pf ∈ vs →
      buildResourceIndex (pfs ++ [pf]) = buildResourceIndex pfs) := by
  refine ⟨?_, ?_, ?_, ?_⟩
  · intro pf s hv hs
    simp only [versionToAdd]
    rw [hv]
    rw [if_pos ⟨by simp [truthy, hs], rfl⟩]
    rfl
  · intro pf hall
    simp only [versionToAdd]
    by_cases hc : truthy (getField pf.frontmatter "version") = true ∧ jsIsStr (getField pf.frontmatter "version") = true
    · obtain ⟨htr, his⟩ := hc
      cases hfv : getField pf.frontmatter "version" with
      | str s =>
          rw [hfv] at htr
          have hs := hall s hfv
          subst hs
          simp [truthy] at htr
      | undef => rw [hfv] at his; simp [jsIsStr] at his
      | null => rw [hfv] at his; simp [jsIsStr] at his
      | num n => rw [hfv] at his; simp [jsIsStr] at his
      | boolean b => rw [hfv] at his; simp [jsIsStr] at his
      | arr xs => rw [hfv] at his; simp [jsIsStr] at his
      | obj fs => rw [hfv] at his; simp [jsIsStr] at his
    · rw [if_neg hc]
  · exact fun pfs pf hmem => buildIndex_contains pfs pf hmem
  · intro pfs pf vs hvs hmem
    unfold buildResourceIndex
    rw [List.foldl_append]
    simp only [List.foldl_cons, List.foldl_nil]
    exact indexStep_eq_self _ pf vs hvs hmem

/-- C7 witness: the contribution rule and idempotence applied to the
versioned command. -/
theorem c7_witness :
    versionToAdd fileCmdCreateUser = "1.0.0" ∧
    buildResourceIndex ([fileCmdCreateUser] ++ [fileCmdCreateUser]) = buildResourceIndex [fileCmdCreateUser] :=
  ⟨c7_version_set_amended.1 fileCmdCreateUser "1.0.0" (by rfl) (by simp),
    c7_version_set_amended.2.2.2 [fileCmdCreateUser] fileCmdCreateUser ["1.0.0"] (by rfl) (by decide)⟩

/-- C8: the never-throws claim fails on the code — a flow whose `steps`
list contains a null entry makes `validateReferences` throw a TypeError
while reading `step.message` instead of returning an error list. -/
theorem c8_null_step_throws :
    validateReferences [fileFlowNullStep] =
      Except.error "TypeError: Cannot read properties of null (reading 'message')" := rfl

end RefLint
